import Mathlib

/-!
Verification development for `autotst/conformer/systematic.py` (AutoTST).

The source file is shallowly embedded below.  Python floats are modelled as
exact rationals.  The external ASE geometry layer (dihedral rotation, stereo
assignment, BFGS optimisation, energy evaluation) is an external collaborator
per the specification; a conformer therefore records the dihedral angles and
stereo labels that the source sets through that layer, and the relaxer is
abstracted as a function producing relaxation results.
-/

namespace AutoTST

attribute [local semireducible] Rat.mul Rat.add Rat.sub Rat.inv

open List

/-- A torsion descriptor: four atom indices defining a dihedral and the mask of
atoms rotated with it.  The `terminal` flag marks a terminal torsion; the split
into terminal and non-terminal torsions is performed by
`find_terminal_torsions` from `autotst.conformer.utilities`, which is outside
the given source file. -/
structure Torsion where
  atomIndices : ℕ × ℕ × ℕ × ℕ
  mask : List Bool
  terminal : Bool
  deriving DecidableEq, Inhabited

/-- A cis/trans (double-bond) stereo descriptor; `bondIndex` models `ct.index`
used by `conformer.set_cistrans`. -/
structure CisTrans where
  bondIndex : ℕ
  deriving DecidableEq, Inhabited

/-- A chiral center; `atomIndex` models `center.atom_index` used by
`conformer.set_chirality`. -/
structure ChiralCenter where
  atomIndex : ℕ
  deriving DecidableEq, Inhabited

/-- The conformer state visible to `systematic.py`: the descriptor lists, the
currently applied dihedral angles and stereo labels (one per descriptor), the
atom positions, an energy and an output index. -/
structure Conformer where
  torsions : List Torsion
  cistrans : List CisTrans
  chiralCenters : List ChiralCenter
  dihedrals : List ℚ
  cisLabels : List String
  chiralLabels : List String
  positions : List (ℚ × ℚ × ℚ)
  energy : ℚ
  index : ℕ
  deriving DecidableEq, Inhabited

/-- One enumerated combination (source line 100-104): a tuple of torsion
angles, a tuple of cis/trans labels and a tuple of chirality labels. -/
abbrev Combo := List ℚ × List String × List String

/-- Helper for `cwr`: the combinations-with-replacement whose tuples are drawn
from an element `x` together with the tuples drawn from the tail pool, whose
combinations are given by `rest`. -/
def cwrGo (x : α) (rest : ℕ → List (List α)) : ℕ → List (List α)
  | 0 => [[]]
  | n + 1 => (cwrGo x rest n).map (fun t => x :: t) ++ rest (n + 1)

/-- `itertools.combinations_with_replacement pool r`: all tuples of length `r`
drawn from `pool` with repetition and with positions in non-decreasing pool
order, in lexicographic order. -/
def cwr : List α → ℕ → List (List α)
  | [] => fun n => match n with | 0 => [[]] | _ + 1 => []
  | x :: xs => cwrGo x (cwr xs)

/-- Number of points of `np.arange(0, 360, delta)`: the ceiling of
`360 / delta`. -/
def gridSize (delta : ℚ) : ℕ := ⌈(360 : ℚ) / delta⌉₊

/-- `np.arange(0, 360, delta)` (source line 60): the multiples `k * delta`
with `k < gridSize delta`. -/
def arange360 (delta : ℚ) : List ℚ :=
  (List.range (gridSize delta)).map (fun k : ℕ => (k : ℚ) * delta)

/-- Source lines 61-69: combinations-with-replacement of the angle grid and,
when the torsion count differs from 1, the set union with the
combinations-with-replacement of the reversed grid.  The Python idiom
`list(set(a + b))` is modelled by `List.dedup`, which keeps one copy of every
tuple (the set's iteration order is unspecified in Python as well). -/
def torsionCombosOf (angles : List ℚ) (n : ℕ) : List (List ℚ) :=
  let fwd := cwr angles n
  if n ≠ 1 then (fwd ++ cwr angles.reverse n).dedup else fwd

/-- Source lines 71-84: cis/trans label tuples over the alphabet
`["E", "Z"]`, with the same reversed-union construction; a single empty tuple
when the `cistrans` flag is disabled. -/
def cistransCombosOf (flag : Bool) (count : ℕ) : List (List String) :=
  if flag then
    let fwd := cwr ["E", "Z"] count
    if count ≠ 1 then (fwd ++ cwr (["E", "Z"].reverse) count).dedup else fwd
  else [[]]

/-- Source lines 86-98.  Line 58 rebinds the `chiral_centers` flag parameter
to `conformer.chiral_centers`, so the test on line 86 is the truthiness of the
chiral-center list, not of the flag; the flag has no effect.  The condition is
therefore non-emptiness of the list. -/
def chiralCombosOf (centers : List ChiralCenter) : List (List String) :=
  if centers.length ≠ 0 then
    let fwd := cwr ["R", "S"] centers.length
    if centers.length ≠ 1 then
      (fwd ++ cwr (["R", "S"].reverse) centers.length).dedup
    else fwd
  else [[]]

/-- Modelled from the spec: `find_terminal_torsions`
(`autotst.conformer.utilities`, not part of the given source) splits the
conformer's torsion list into terminal and non-terminal torsions; the
enumeration then works over the non-terminal ones (source line 56). -/
def findTerminalTorsions (c : Conformer) : List Torsion × List Torsion :=
  (c.torsions.filter (fun t => t.terminal), c.torsions.filter (fun t => !t.terminal))

/-- Length of the non-terminal torsion list used by the enumerator. -/
def torsionCount (c : Conformer) : ℕ := (findTerminalTorsions c).2.length

/-- `find_all_combos` (source lines 47-105): the cross product of torsion
angle tuples, cis/trans tuples and chirality tuples, in `itertools.product`
order. -/
def findAllCombos (c : Conformer) (delta : ℚ) (cistransFlag chiralFlag : Bool) : List Combo :=
  torsionCombosOf (arange360 delta) (torsionCount c) ×ˢ
    (cistransCombosOf cistransFlag c.cistrans.length ×ˢ chiralCombosOf c.chiralCenters)

/-- `np.any(combos)` (source line 134): the nested tuples form a ragged array
whose truthiness amounts to: some combination has a non-empty component
(a non-empty tuple, or a non-empty string/float entry, is truthy). -/
def npAnyCombos (combos : List Combo) : Bool :=
  combos.any (fun c => !c.1.isEmpty || !c.2.1.isEmpty || !c.2.2.isEmpty)

/-- Source lines 151-177: apply one combination to the working conformer.  The
ASE calls `set_dihedral` / `set_cistrans` / `set_chirality` act through the
external geometry layer; they are modelled as recording the i-th angle or
label, matching the loop `for i, torsion in enumerate(torsions)` and its two
siblings. -/
def applyComboToBase (c : Conformer) (combo : Combo) : Conformer :=
  { c with
    dihedrals := combo.1.enum.foldl (fun ds p => ds.set p.1 p.2) c.dihedrals
    cisLabels := combo.2.1.enum.foldl (fun ls p => ls.set p.1 p.2) c.cisLabels
    chiralLabels := combo.2.2.enum.foldl (fun ls p => ls.set p.1 p.2) c.chiralLabels }

/-- A heap of Python conformer objects, addressed by object identity
(the list position). -/
abbrev Heap := List Conformer

/-- In-place mutation of the object with id `i`. -/
def heapModify (h : Heap) (i : ℕ) (f : Conformer → Conformer) : Heap :=
  h.set i (f (h.getD i default))

/-- `conformer.copy()`: allocate a fresh object holding the current value of
object `i`; returns the new heap and the fresh id. -/
def copyObj (h : Heap) (i : ℕ) : Heap × ℕ := (h ++ [h.getD i default], h.length)

/-- Source lines 147-179: the candidate-building loop.  For each combination
it mutates the base object in place (`conformer.ase_molecule.set_dihedral`
etc. act on the base), then stores `conformer.copy()` under the combination
index.  Returns the final heap and the candidate ids in combination order. -/
def buildCandidates (h : Heap) (b : ℕ) : List Combo → Heap × List ℕ
  | [] => (h, [])
  | combo :: rest =>
    let h1 := heapModify h b (fun c => applyComboToBase c combo)
    let hc := copyObj h1 b
    let r := buildCandidates hc.1 b rest
    (r.1, hc.2 :: r.2)

/-- Entry of `return_dict` (source line 210): the relaxed energy, the relaxed
positions and the pairwise atomic distance matrix, the latter kept as the flat
list of its entries (the mean on line 241 ranges over all entries). -/
structure RelaxResult where
  energy : ℚ
  positions : List (ℚ × ℚ × ℚ)
  distances : List ℚ
  deriving DecidableEq, Inhabited

/-- `df.energy.min()` (source line 232). -/
def minEnergy : List RelaxResult → ℚ
  | [] => 0
  | r :: rs => rs.foldl (fun m s => min m s.energy) r.energy

/-- Source line 232, filter part: keep rows whose energy is strictly below the
minimum plus the window.  The window `w` stands for the constant
`units.kcal / units.mol / units.eV` (1 kcal/mol expressed in the energy units
reported by the calculator). -/
def windowFilter (w : ℚ) (rs : List RelaxResult) : List RelaxResult :=
  rs.filter (fun r => decide (r.energy < minEnergy rs + w))

/-- The comparison used by `sort_values("energy")`. -/
def energyLE (a b : RelaxResult) : Prop := a.energy ≤ b.energy

instance : DecidableRel energyLE := fun a b => inferInstanceAs (Decidable (a.energy ≤ b.energy))

instance : IsTotal RelaxResult energyLE := ⟨fun a b => le_total a.energy b.energy⟩

instance : IsTrans RelaxResult energyLE := ⟨fun _ _ _ hab hbc => le_trans hab hbc⟩

/-- `sort_values("energy")` (source line 232): a sort of the rows by
ascending energy. -/
def sortByEnergy (rs : List RelaxResult) : List RelaxResult := List.insertionSort energyLE rs

/-- Source line 232: the energy-window filter followed by the energy sort. -/
def windowFilterSort (w : ℚ) (rs : List RelaxResult) : List RelaxResult :=
  sortByEnergy (windowFilter w rs)

/-- The mean of the squared elementwise differences of two distance matrices
(source line 241, before the square root). -/
def meanSqDiff (A B : List ℚ) : ℚ :=
  (List.zipWith (fun a b => (a - b) ^ 2) A B).sum / A.length

/-- Source line 241 marks a row as duplicate when NOT
`sqrt(meanSqDiff) > 0.1`; both sides being nonnegative this is
`meanSqDiff <= (1/10)^2`, which keeps the development free of real square
roots (see `sqrt_le_tenth_iff` below for the bridge). -/
def closeB (a b : RelaxResult) : Bool := decide (meanSqDiff a.distances b.distances ≤ 1 / 100)

/-- Source lines 233-242: the greedy near-duplicate pass over the
energy-sorted rows.  A row enters `scratch_index` exactly when it is within
the 0.1 cutoff of some earlier kept representative, so a row is kept iff it is
far from every earlier kept representative. -/
def greedyPass (kept : List RelaxResult) : List RelaxResult → List RelaxResult
  | [] => []
  | x :: rest =>
    if kept.all (fun r => !closeB r x) then x :: greedyPass (x :: kept) rest
    else greedyPass kept rest

/-- Source lines 231-242: the full deduplication step on the collected
relaxation results (in the order in which they were read from
`return_dict`). -/
def dedupPipeline (w : ℚ) (rs : List RelaxResult) : List RelaxResult :=
  greedyPass [] (windowFilterSort w rs)

/-- Source lines 245-254: the result assembler; for the i-th kept row, a copy
of the base conformer with output index `i`, the recorded energy and the
recorded relaxed positions. -/
def assembleResults (base : Conformer) (kept : List RelaxResult) : List Conformer :=
  kept.enum.map (fun p =>
    { base with energy := p.2.energy, index := p.1, positions := p.2.positions })

/-- `systematic_search` (source lines 108-256).  `opt` abstracts the external
relaxer (`BFGS` plus `get_energy`); `completion` lists candidate indices in
the order in which the worker processes finished writing `return_dict`
(line 228 reads the dict in insertion order and discards the keys). -/
def systematicSearch (opt : Conformer → RelaxResult) (completion : List ℕ) (w : ℚ)
    (conformer : Conformer) (delta : ℚ) (cistransFlag chiralFlag : Bool) : List Conformer :=
  let combos := findAllCombos conformer delta cistransFlag chiralFlag
  if npAnyCombos combos = false then [conformer]
  else
    let built := buildCandidates [conformer] 0 combos
    let results := completion.filterMap
      (fun i => (built.2.get? i).map (fun cid => opt (built.1.getD cid default)))
    assembleResults (built.1.getD 0 default) (dedupPipeline w results)

/-- Test fixture: a conformer with one non-terminal torsion at dihedral 0 and
no other descriptors. -/
def oneTorsionBase : Conformer :=
  { torsions := [{ atomIndices := (0, 1, 2, 3), mask := [], terminal := false }]
    cistrans := []
    chiralCenters := []
    dihedrals := [0]
    cisLabels := []
    chiralLabels := []
    positions := []
    energy := 0
    index := 0 }

/-- Test fixture: a conformer with a single cis/trans descriptor and nothing
else. -/
def oneCisBase : Conformer :=
  { torsions := []
    cistrans := [{ bondIndex := 0 }]
    chiralCenters := []
    dihedrals := []
    cisLabels := ["E"]
    chiralLabels := []
    positions := []
    energy := 0
    index := 0 }

/-- Test fixture: a conformer with no torsions, no cis/trans descriptors and
no chiral centers. -/
def bareBase : Conformer :=
  { torsions := []
    cistrans := []
    chiralCenters := []
    dihedrals := []
    cisLabels := []
    chiralLabels := []
    positions := []
    energy := 0
    index := 0 }

/-- Relaxation-result fixture: energy 0, distance matrix entry 0. -/
def resA : RelaxResult := { energy := 0, positions := [(0, 0, 0)], distances := [0] }

/-- Relaxation-result fixture: same energy and distance matrix as `resA` but
different positions (for example a mirror image). -/
def resB : RelaxResult := { energy := 0, positions := [(1, 0, 0)], distances := [0] }

/-- Relaxation-result fixture: energy 1, distance matrix far from `resA`. -/
def resC : RelaxResult := { energy := 1, positions := [], distances := [5] }

/-- Relaxation-result fixture sitting exactly on the energy-window boundary
when the window is 1. -/
def resBoundary : RelaxResult := { energy := 1, positions := [], distances := [100] }

/-- Relaxation-result fixture with energy 0 (spec example, kcal/mol units). -/
def res0 : RelaxResult := { energy := 0, positions := [], distances := [0] }

/-- Relaxation-result fixture with energy 0.2 (spec example). -/
def res02 : RelaxResult := { energy := 1 / 5, positions := [], distances := [200] }

/-- Relaxation-result fixture with energy 2.0 (spec example). -/
def res2 : RelaxResult := { energy := 2, positions := [], distances := [300] }

/-! Lemmas about `cwr`. -/

theorem cwr_zero : ∀ (pool : List α), cwr pool 0 = [[]]
  | [] => rfl
  | _ :: _ => rfl

theorem cwr_nil_succ (n : ℕ) : cwr ([] : List α) (n + 1) = [] := rfl

theorem cwr_cons_succ (x : α) (xs : List α) (n : ℕ) :
    cwr (x :: xs) (n + 1) = (cwr (x :: xs) n).map (fun t => x :: t) ++ cwr xs (n + 1) := rfl

theorem length_of_mem_cwr : ∀ (pool : List α) (n : ℕ), ∀ t ∈ cwr pool n, t.length = n
  | pool, 0 => by
    intro t ht
    rw [cwr_zero] at ht
    simp only [List.mem_singleton] at ht
    simp [ht]
  | [], n + 1 => by
    intro t ht
    simp [cwr_nil_succ] at ht
  | x :: xs, n + 1 => by
    intro t ht
    rw [cwr_cons_succ] at ht
    rcases List.mem_append.1 ht with h | h
    · rcases List.mem_map.1 h with ⟨t', ht', rfl⟩
      simp [length_of_mem_cwr (x :: xs) n t' ht']
    · exact length_of_mem_cwr xs (n + 1) t h
  termination_by pool n => (n, pool.length)

theorem mem_pool_of_mem_cwr :
    ∀ (pool : List α) (n : ℕ), ∀ t ∈ cwr pool n, ∀ a ∈ t, a ∈ pool
  | pool, 0 => by
    intro t ht
    rw [cwr_zero] at ht
    simp only [List.mem_singleton] at ht
    simp [ht]
  | [], n + 1 => by
    intro t ht
    simp [cwr_nil_succ] at ht
  | x :: xs, n + 1 => by
    intro t ht a ha
    rw [cwr_cons_succ] at ht
    rcases List.mem_append.1 ht with h | h
    · rcases List.mem_map.1 h with ⟨t', ht', rfl⟩
      rcases List.mem_cons.1 ha with rfl | ha'
      · exact List.mem_cons_self a xs
      · exact mem_pool_of_mem_cwr (x :: xs) n t' ht' a ha'
    · exact List.mem_cons_of_mem x (mem_pool_of_mem_cwr xs (n + 1) t h a ha)
  termination_by pool n => (n, pool.length)

theorem pairwise_of_mem_cwr {R : α → α → Prop} :
    ∀ (pool : List α), (∀ a ∈ pool, R a a) → pool.Pairwise R →
      ∀ (n : ℕ), ∀ t ∈ cwr pool n, t.Pairwise R
  | pool, _, _, 0 => by
    intro t ht
    rw [cwr_zero] at ht
    simp only [List.mem_singleton] at ht
    simp [ht]
  | [], _, _, n + 1 => by
    intro t ht
    simp [cwr_nil_succ] at ht
  | x :: xs, hrefl, hpw, n + 1 => by
    intro t ht
    rw [cwr_cons_succ] at ht
    rcases List.mem_append.1 ht with h | h
    · rcases List.mem_map.1 h with ⟨t', ht', rfl⟩
      refine List.Pairwise.cons ?_ (pairwise_of_mem_cwr (x :: xs) hrefl hpw n t' ht')
      intro a ha
      rcases List.mem_cons.1 (mem_pool_of_mem_cwr (x :: xs) n t' ht' a ha) with rfl | ha'
      · exact hrefl a (List.mem_cons_self a xs)
      · exact List.rel_of_pairwise_cons hpw ha'
    · exact pairwise_of_mem_cwr xs (fun a ha => hrefl a (List.mem_cons_of_mem x ha))
        (List.Pairwise.of_cons hpw) (n + 1) t h
  termination_by pool _ _ n => (n, pool.length)

/-! Lemmas about the angle grid. -/

theorem mem_arange360 {delta : ℚ} (hd : 0 < delta) (x : ℚ) :
    x ∈ arange360 delta ↔ (∃ k : ℕ, x = (k : ℚ) * delta) ∧ 0 ≤ x ∧ x < 360 := by
  constructor
  · intro hx
    simp only [arange360] at hx
    obtain ⟨k, hk, rfl⟩ := List.mem_map.1 hx
    rw [List.mem_range] at hk
    simp only [gridSize] at hk
    refine ⟨⟨k, rfl⟩, mul_nonneg (Nat.cast_nonneg k) hd.le, ?_⟩
    have hk' : (k : ℚ) < (360 : ℚ) / delta := Nat.lt_ceil.1 hk
    calc (k : ℚ) * delta < (360 : ℚ) / delta * delta := mul_lt_mul_of_pos_right hk' hd
      _ = 360 := div_mul_cancel₀ _ hd.ne'
  · rintro ⟨⟨k, rfl⟩, -, hlt⟩
    simp only [arange360]
    refine List.mem_map.2 ⟨k, ?_, rfl⟩
    rw [List.mem_range]
    simp only [gridSize]
    rw [Nat.lt_ceil, lt_div_iff₀ hd]
    exact_mod_cast hlt

theorem arange360_pairwise_le {delta : ℚ} (hd : 0 < delta) :
    (arange360 delta).Pairwise (· ≤ ·) := by
  simp only [arange360]
  refine List.Pairwise.map _ (fun a b hab => ?_) (List.pairwise_lt_range (gridSize delta))
  have hab' : (a : ℚ) ≤ (b : ℚ) := by exact_mod_cast hab.le
  exact mul_le_mul_of_nonneg_right hab' hd.le

/-! Lemmas about the three tuple enumerations. -/

theorem mem_torsionCombosOf (angles : List ℚ) (n : ℕ) (t : List ℚ) :
    t ∈ torsionCombosOf angles n
      ↔ t ∈ cwr angles n ∨ (1 < n ∧ t ∈ cwr angles.reverse n) := by
  match n with
  | 0 =>
    simp only [torsionCombosOf]
    rw [if_pos (by simp)]
    rw [List.mem_dedup, List.mem_append, cwr_zero, cwr_zero]
    simp
  | 1 =>
    simp only [torsionCombosOf]
    rw [if_neg (by simp)]
    simp
  | n + 2 =>
    simp only [torsionCombosOf]
    rw [if_pos (by simp)]
    rw [List.mem_dedup, List.mem_append]
    simp [Nat.succ_lt_succ (Nat.succ_pos n)]

theorem length_of_mem_torsionCombosOf {angles : List ℚ} {n : ℕ} {t : List ℚ}
    (ht : t ∈ torsionCombosOf angles n) : t.length = n := by
  rcases (mem_torsionCombosOf angles n t).1 ht with h | ⟨-, h⟩
  · exact length_of_mem_cwr angles n t h
  · exact length_of_mem_cwr angles.reverse n t h

theorem length_of_mem_union_cwr {opts : List String} {k : ℕ} {t : List String}
    (ht : t ∈ if k ≠ 1 then (cwr opts k ++ cwr opts.reverse k).dedup else cwr opts k) :
    t.length = k := by
  by_cases hk : k ≠ 1
  · rw [if_pos hk, List.mem_dedup, List.mem_append] at ht
    rcases ht with h | h
    · exact length_of_mem_cwr _ _ t h
    · exact length_of_mem_cwr _ _ t h
  · rw [if_neg hk] at ht
    exact length_of_mem_cwr _ _ t ht

theorem length_of_mem_cistransCombosOf {flag : Bool} {count : ℕ} {t : List String}
    (ht : t ∈ cistransCombosOf flag count) : t.length = if flag then count else 0 := by
  cases flag with
  | false =>
    simp only [cistransCombosOf] at ht
    simp only [Bool.false_eq_true, if_false, List.mem_singleton] at ht
    simp [ht]
  | true =>
    have ht' : t ∈ if count ≠ 1
        then (cwr ["E", "Z"] count ++ cwr (["E", "Z"].reverse) count).dedup
        else cwr ["E", "Z"] count := by
      simpa [cistransCombosOf] using ht
    simpa using length_of_mem_union_cwr ht'

theorem length_of_mem_chiralCombosOf {centers : List ChiralCenter} {t : List String}
    (ht : t ∈ chiralCombosOf centers) : t.length = centers.length := by
  by_cases hn : centers = []
  · subst hn
    simp only [chiralCombosOf] at ht
    simp only [List.length_nil, ne_eq, not_true_eq_false, if_false, List.mem_singleton] at ht
    simp [ht]
  · have ht' : t ∈ if centers.length = 1
        then cwr ["R", "S"] centers.length
        else (cwr ["R", "S"] centers.length ++ cwr ["S", "R"] centers.length).dedup := by
      simpa [chiralCombosOf, hn] using ht
    by_cases hc : centers.length = 1
    · rw [if_pos hc] at ht'
      exact length_of_mem_cwr _ _ t ht'
    · rw [if_neg hc, List.mem_dedup, List.mem_append] at ht'
      rcases ht' with h | h
      · exact length_of_mem_cwr _ _ t h
      · exact length_of_mem_cwr _ _ t h

/-! Lemmas about the heap model and the candidate builder. -/

theorem heap_getD_set_self : ∀ (l : List Conformer) (i : ℕ) (a : Conformer),
    i < l.length → (l.set i a).getD i default = a
  | [], i, a, h => absurd h (by simp)
  | _ :: _, 0, _, _ => rfl
  | _ :: t, i + 1, a, h => heap_getD_set_self t i a (by simpa using h)

theorem heap_getD_set_ne : ∀ (l : List Conformer) (i j : ℕ) (a : Conformer),
    j ≠ i → (l.set i a).getD j default = l.getD j default
  | [], _, _, _, _ => rfl
  | _ :: _, 0, 0, _, hne => absurd rfl hne
  | _ :: _, 0, _ + 1, _, _ => rfl
  | _ :: _, _ + 1, 0, _, _ => rfl
  | _ :: t, i + 1, j + 1, a, hne =>
    heap_getD_set_ne t i j a (fun h => hne (congrArg Nat.succ h))

theorem heap_getD_append_left : ∀ (l t : List Conformer) (j : ℕ),
    j < l.length → (l ++ t).getD j default = l.getD j default
  | [], _, j, h => absurd h (by simp)
  | _ :: _, _, 0, _ => rfl
  | _ :: l', t, j + 1, h => heap_getD_append_left l' t j (by simpa using h)

theorem heapModify_getD_ne (h : Heap) (i j : ℕ) (f : Conformer → Conformer)
    (hne : j ≠ i) : (heapModify h i f).getD j default = h.getD j default :=
  heap_getD_set_ne h i j _ hne

theorem buildCandidates_spec : ∀ (combos : List Combo) (h : Heap) (b : ℕ),
    b < h.length →
    (buildCandidates h b combos).2 = List.range' h.length combos.length
    ∧ (buildCandidates h b combos).1.length = h.length + combos.length
    ∧ (buildCandidates h b combos).1.getD b default
        = combos.foldl applyComboToBase (h.getD b default)
  | [], h, b, _ => by simp [buildCandidates]
  | combo :: rest, h, b, hb => by
    have hm : (heapModify h b (fun c => applyComboToBase c combo)).length = h.length := by
      simp [heapModify]
    have hb2 : b < (copyObj (heapModify h b (fun c => applyComboToBase c combo)) b).1.length := by
      simp only [copyObj, List.length_append, List.length_singleton, hm]
      omega
    obtain ⟨ih1, ih2, ih3⟩ := buildCandidates_spec rest
      (copyObj (heapModify h b (fun c => applyComboToBase c combo)) b).1 b hb2
    have hlen : (copyObj (heapModify h b (fun c => applyComboToBase c combo)) b).1.length
        = h.length + 1 := by
      simp only [copyObj, List.length_append, List.length_singleton, hm]
    have hbase : (copyObj (heapModify h b (fun c => applyComboToBase c combo)) b).1.getD b default
        = applyComboToBase (h.getD b default) combo := by
      simp only [copyObj]
      rw [heap_getD_append_left _ _ b (by rw [hm]; exact hb)]
      simp only [heapModify]
      exact heap_getD_set_self h b _ hb
    refine ⟨?_, ?_, ?_⟩
    · show (copyObj (heapModify h b (fun c => applyComboToBase c combo)) b).2
          :: (buildCandidates (copyObj (heapModify h b (fun c => applyComboToBase c combo)) b).1
            b rest).2
        = List.range' h.length (rest.length + 1)
      rw [ih1, hlen]
      have hcid : (copyObj (heapModify h b (fun c => applyComboToBase c combo)) b).2
          = h.length := by
        simp only [copyObj, hm]
      rw [hcid, List.range'_succ]
    · show (buildCandidates (copyObj (heapModify h b (fun c => applyComboToBase c combo)) b).1
          b rest).1.length = h.length + (rest.length + 1)
      rw [ih2, hlen]
      omega
    · show (buildCandidates (copyObj (heapModify h b (fun c => applyComboToBase c combo)) b).1
          b rest).1.getD b default
        = List.foldl applyComboToBase (h.getD b default) (combo :: rest)
      rw [ih3, hbase]
      rfl

/-! Lemmas about the energy minimum, the window filter and the energy sort. -/

theorem minFold_le (l : List RelaxResult) :
    ∀ a : ℚ, l.foldl (fun m s => min m s.energy) a ≤ a := by
  induction l with
  | nil => intro a; exact le_refl a
  | cons x t ih =>
    intro a
    exact le_trans (ih (min a x.energy)) (min_le_left _ _)

theorem minFold_le_mem (l : List RelaxResult) :
    ∀ (a : ℚ), ∀ s ∈ l, l.foldl (fun m s => min m s.energy) a ≤ s.energy := by
  induction l with
  | nil => intro a s hs; exact absurd hs (by simp)
  | cons x t ih =>
    intro a s hs
    rcases List.mem_cons.1 hs with rfl | hs'
    · exact le_trans (minFold_le t (min a s.energy)) (min_le_right _ _)
    · exact ih (min a x.energy) s hs'

theorem minFold_attained (l : List RelaxResult) :
    ∀ a : ℚ, l.foldl (fun m s => min m s.energy) a = a
      ∨ ∃ s ∈ l, l.foldl (fun m s => min m s.energy) a = s.energy := by
  induction l with
  | nil => intro a; exact Or.inl rfl
  | cons x t ih =>
    intro a
    rcases ih (min a x.energy) with h | ⟨s, hs, h⟩
    · rcases le_total a x.energy with hle | hle
      · exact Or.inl (h.trans (min_eq_left hle))
      · exact Or.inr ⟨x, List.mem_cons_self x t, h.trans (min_eq_right hle)⟩
    · exact Or.inr ⟨s, List.mem_cons_of_mem x hs, h⟩

theorem minEnergy_le_of_mem {rs : List RelaxResult} {r : RelaxResult} (hr : r ∈ rs) :
    minEnergy rs ≤ r.energy := by
  match rs, hr with
  | x :: t, hr =>
    rcases List.mem_cons.1 hr with rfl | hr'
    · exact minFold_le t r.energy
    · exact minFold_le_mem t x.energy r hr'

theorem minEnergy_attained {rs : List RelaxResult} (hne : rs ≠ []) :
    ∃ r ∈ rs, minEnergy rs = r.energy := by
  match rs, hne with
  | x :: t, _ =>
    rcases minFold_attained t x.energy with h | ⟨s, hs, h⟩
    · exact ⟨x, List.mem_cons_self x t, h⟩
    · exact ⟨s, List.mem_cons_of_mem x hs, h⟩

theorem minEnergy_perm {rs rs' : List RelaxResult} (hperm : rs ~ rs') :
    minEnergy rs = minEnergy rs' := by
  rcases eq_or_ne rs [] with rfl | hne
  · rw [hperm.symm.eq_nil]
  · have hne' : rs' ≠ [] := fun h =>
      hne (List.length_eq_zero.1 (by rw [hperm.length_eq, h]; rfl))
    obtain ⟨r, hr, hmin⟩ := minEnergy_attained hne
    obtain ⟨r', hr', hmin'⟩ := minEnergy_attained hne'
    have h1 : minEnergy rs ≤ minEnergy rs' :=
      hmin' ▸ minEnergy_le_of_mem (hperm.mem_iff.2 hr')
    have h2 : minEnergy rs' ≤ minEnergy rs :=
      hmin ▸ minEnergy_le_of_mem (hperm.mem_iff.1 hr)
    exact le_antisymm h1 h2

theorem mem_windowFilter {w : ℚ} {rs : List RelaxResult} {r : RelaxResult} :
    r ∈ windowFilter w rs ↔ r ∈ rs ∧ r.energy < minEnergy rs + w := by
  simp [windowFilter, List.mem_filter]

theorem sortByEnergy_sorted (rs : List RelaxResult) :
    (sortByEnergy rs).Sorted energyLE :=
  List.sorted_insertionSort energyLE rs

theorem sortByEnergy_perm (rs : List RelaxResult) : sortByEnergy rs ~ rs :=
  List.perm_insertionSort energyLE rs

theorem sortByEnergy_eq_of_sorted {rs : List RelaxResult} (h : rs.Sorted energyLE) :
    sortByEnergy rs = rs :=
  List.Sorted.insertionSort_eq h

theorem windowFilterSort_sorted (w : ℚ) (rs : List RelaxResult) :
    (windowFilterSort w rs).Sorted energyLE :=
  sortByEnergy_sorted (windowFilter w rs)

theorem mem_windowFilterSort {w : ℚ} {rs : List RelaxResult} {r : RelaxResult} :
    r ∈ windowFilterSort w rs ↔ r ∈ rs ∧ r.energy < minEnergy rs + w := by
  rw [windowFilterSort, (sortByEnergy_perm (windowFilter w rs)).mem_iff]
  exact mem_windowFilter

/-! Lemmas about the greedy near-duplicate pass. -/

theorem greedyPass_sublist : ∀ (l kept : List RelaxResult), greedyPass kept l <+ l
  | [], _ => List.Sublist.refl []
  | x :: rest, kept => by
    rw [greedyPass]
    by_cases hc : kept.all (fun r => !closeB r x) = true
    · rw [if_pos hc]
      exact List.Sublist.cons₂ x (greedyPass_sublist rest (x :: kept))
    · rw [if_neg hc]
      exact List.Sublist.cons x (greedyPass_sublist rest kept)

theorem far_of_mem_greedyPass : ∀ (l kept : List RelaxResult),
    ∀ y ∈ greedyPass kept l, ∀ r ∈ kept, closeB r y = false
  | [], _ => by intro y hy; simp [greedyPass] at hy
  | x :: rest, kept => by
    intro y hy r hr
    rw [greedyPass] at hy
    by_cases hc : kept.all (fun r => !closeB r x) = true
    · rw [if_pos hc] at hy
      rcases List.mem_cons.1 hy with rfl | hy'
      · have := List.all_eq_true.1 hc r hr
        simpa using this
      · exact far_of_mem_greedyPass rest (x :: kept) y hy' r (List.mem_cons_of_mem x hr)
    · rw [if_neg hc] at hy
      exact far_of_mem_greedyPass rest kept y hy r hr

theorem greedyPass_pairwise_far : ∀ (l kept : List RelaxResult),
    (greedyPass kept l).Pairwise (fun a b => closeB a b = false)
  | [], _ => by simp [greedyPass]
  | x :: rest, kept => by
    rw [greedyPass]
    by_cases hc : kept.all (fun r => !closeB r x) = true
    · rw [if_pos hc]
      refine List.Pairwise.cons ?_ (greedyPass_pairwise_far rest (x :: kept))
      intro y hy
      exact far_of_mem_greedyPass rest (x :: kept) y hy x (List.mem_cons_self x kept)
    · rw [if_neg hc]
      exact greedyPass_pairwise_far rest kept
  termination_by l _ => l.length

theorem greedyPass_eq_self : ∀ (l kept : List RelaxResult),
    l.Pairwise (fun a b => closeB a b = false) →
    (∀ r ∈ kept, ∀ x ∈ l, closeB r x = false) →
    greedyPass kept l = l
  | [], _, _, _ => rfl
  | x :: rest, kept, hpw, hacc => by
    rw [greedyPass]
    have hc : kept.all (fun r => !closeB r x) = true :=
      List.all_eq_true.2 fun r hr => by
        simp [hacc r hr x (List.mem_cons_self x rest)]
    rw [if_pos hc]
    congr 1
    refine greedyPass_eq_self rest (x :: kept) (List.Pairwise.of_cons hpw) ?_
    intro r hr y hy
    rcases List.mem_cons.1 hr with rfl | hr'
    · exact List.rel_of_pairwise_cons hpw hy
    · exact hacc r hr' y (List.mem_cons_of_mem x hy)

/-! The deduplication pipeline output: sorted, and each element comes from the
window filter. -/

theorem dedupPipeline_sorted (w : ℚ) (rs : List RelaxResult) :
    (dedupPipeline w rs).Sorted energyLE :=
  List.Pairwise.sublist (greedyPass_sublist (windowFilterSort w rs) [])
    (windowFilterSort_sorted w rs)

theorem mem_of_mem_dedupPipeline {w : ℚ} {rs : List RelaxResult} {r : RelaxResult}
    (hr : r ∈ dedupPipeline w rs) : r ∈ rs ∧ r.energy < minEnergy rs + w :=
  mem_windowFilterSort.1
    ((greedyPass_sublist (windowFilterSort w rs) []).subset hr)

/-! The square-root bridge: the source compares `sqrt(meanSqDiff) > 0.1`; with
a nonnegative argument this is equivalent to the squared comparison used by
`closeB`. -/

theorem zipWith_sq_sum_nonneg : ∀ (A B : List ℚ),
    0 ≤ (List.zipWith (fun a b => (a - b) ^ 2) A B).sum
  | [], _ => by simp
  | _ :: _, [] => by simp
  | a :: A', b :: B' => by
    simp only [List.zipWith_cons_cons, List.sum_cons]
    exact add_nonneg (sq_nonneg _) (zipWith_sq_sum_nonneg A' B')

theorem meanSqDiff_nonneg (A B : List ℚ) : 0 ≤ meanSqDiff A B :=
  div_nonneg (zipWith_sq_sum_nonneg A B) (Nat.cast_nonneg _)

theorem sqrt_le_tenth_iff (m : ℚ) : Real.sqrt (m : ℝ) ≤ 1 / 10 ↔ m ≤ 1 / 100 := by
  rw [Real.sqrt_le_iff]
  rw [show ((1 : ℝ) / 10) ^ 2 = (((1 : ℚ) / 100 : ℚ) : ℝ) by norm_num]
  rw [Rat.cast_le]
  constructor
  · rintro ⟨-, h⟩
    exact h
  · intro h
    exact ⟨by norm_num, h⟩

theorem tenth_lt_sqrt_iff (m : ℚ) : 1 / 10 < Real.sqrt (m : ℝ) ↔ 1 / 100 < m := by
  rw [← not_le, sqrt_le_tenth_iff, not_le]

theorem closeB_iff {a b : RelaxResult} :
    closeB a b = true ↔ Real.sqrt ((meanSqDiff a.distances b.distances : ℚ) : ℝ) ≤ 1 / 10 := by
  rw [closeB, decide_eq_true_iff, sqrt_le_tenth_iff]

theorem closeB_eq_false_iff {a b : RelaxResult} :
    closeB a b = false ↔ 1 / 10 < Real.sqrt ((meanSqDiff a.distances b.distances : ℚ) : ℝ) := by
  rw [tenth_lt_sqrt_iff, closeB, decide_eq_false_iff_not, not_le]

/-! Lemmas about the result assembler. -/

theorem assemble_map_index (base : Conformer) (kept : List RelaxResult) :
    (assembleResults base kept).map Conformer.index = List.range kept.length := by
  simp only [assembleResults, List.map_map]
  have hf : (Conformer.index ∘ fun p : ℕ × RelaxResult =>
      { base with energy := p.2.energy, index := p.1, positions := p.2.positions })
      = Prod.fst := by
    funext p
    rfl
  rw [hf, List.enum_eq_enumFrom, List.enumFrom_map_fst, ← List.range_eq_range']

theorem assemble_map_energy (base : Conformer) (kept : List RelaxResult) :
    (assembleResults base kept).map Conformer.energy = kept.map RelaxResult.energy := by
  simp only [assembleResults, List.map_map]
  have hf : (Conformer.energy ∘ fun p : ℕ × RelaxResult =>
      { base with energy := p.2.energy, index := p.1, positions := p.2.positions })
      = RelaxResult.energy ∘ Prod.snd := by
    funext p
    rfl
  rw [hf, ← List.map_map, List.enum_eq_enumFrom, List.enumFrom_map_snd]

theorem assemble_map_positions (base : Conformer) (kept : List RelaxResult) :
    (assembleResults base kept).map Conformer.positions
      = kept.map RelaxResult.positions := by
  simp only [assembleResults, List.map_map]
  have hf : (Conformer.positions ∘ fun p : ℕ × RelaxResult =>
      { base with energy := p.2.energy, index := p.1, positions := p.2.positions })
      = RelaxResult.positions ∘ Prod.snd := by
    funext p
    rfl
  rw [hf, ← List.map_map, List.enum_eq_enumFrom, List.enumFrom_map_snd]

/-! Equality of two sorted permutations whose energies are pairwise
distinct. -/

theorem eq_of_perm_sorted_nodupE : ∀ {l₁ l₂ : List RelaxResult}, List.Perm l₁ l₂ →
    l₁.Sorted energyLE → l₂.Sorted energyLE →
    (l₁.map RelaxResult.energy).Nodup → l₁ = l₂ := by
  intro l₁
  induction l₁ with
  | nil =>
    intro l₂ hp _ _ _
    exact hp.symm.eq_nil.symm
  | cons a t₁ ih =>
    intro l₂ hp h₁ h₂ hnd
    match l₂ with
    | [] => exact absurd hp.eq_nil (by simp)
    | b :: t₂ =>
      by_cases hab : a = b
      · subst hab
        have htail : t₁ = t₂ := by
          refine ih hp.cons_inv h₁.of_cons h₂.of_cons ?_
          have := hnd
          simp only [List.map_cons, List.nodup_cons] at this
          exact this.2
        rw [htail]
      · exfalso
        have hbmem : b ∈ t₁ := by
          have hb : b ∈ a :: t₁ := hp.mem_iff.2 (List.mem_cons_self b t₂)
          rcases List.mem_cons.1 hb with h | h
          · exact absurd h.symm hab
          · exact h
        have hamem : a ∈ t₂ := by
          have ha : a ∈ b :: t₂ := hp.mem_iff.1 (List.mem_cons_self a t₁)
          rcases List.mem_cons.1 ha with h | h
          · exact absurd h hab
          · exact h
        have hle1 : a.energy ≤ b.energy := List.rel_of_pairwise_cons h₁ hbmem
        have hle2 : b.energy ≤ a.energy := List.rel_of_pairwise_cons h₂ hamem
        have heq : b.energy = a.energy := le_antisymm hle2 hle1
        have hmem : b.energy ∈ t₁.map RelaxResult.energy :=
          List.mem_map_of_mem RelaxResult.energy hbmem
        rw [heq] at hmem
        have hnotmem : a.energy ∉ t₁.map RelaxResult.energy := by
          have := hnd
          simp only [List.map_cons, List.nodup_cons] at this
          exact this.1
        exact hnotmem hmem

/-! The claim theorems. -/

/-- C1, counterexample: building the candidates for the enumerated
combinations of a one-torsion conformer (delta = 120) leaves the base heap
object in a mutated state (its dihedral is 240, not the original 0), so the
claim that building a candidate leaves the base structure unmodified is false
on the code. -/
theorem c1_base_mutation_cex :
    (buildCandidates [oneTorsionBase] 0
        (findAllCombos oneTorsionBase 120 true true)).1.getD 0 default
      ≠ oneTorsionBase := by decide

/-- C1, amended: the candidate-building loop mutates the base object in place,
so after the loop the base holds the result of folding every combination over
it; however each stored candidate is a fresh copy: the candidate ids are
pairwise distinct and distinct from the base id, and mutating one candidate's
object (by an arbitrary update f) changes no other heap object — neither the
base nor any sibling candidate. -/
theorem c1_candidate_snapshots (h : Heap) (b : ℕ) (combos : List Combo)
    (hb : b < h.length) :
    (buildCandidates h b combos).1.getD b default
        = combos.foldl applyComboToBase (h.getD b default)
    ∧ (buildCandidates h b combos).2.Nodup
    ∧ (∀ cid ∈ (buildCandidates h b combos).2, b ≠ cid)
    ∧ ∀ cid ∈ (buildCandidates h b combos).2, ∀ f : Conformer → Conformer, ∀ j : ℕ,
        j ≠ cid → (heapModify (buildCandidates h b combos).1 cid f).getD j default
          = (buildCandidates h b combos).1.getD j default := by
  obtain ⟨hids, hlen, hbase⟩ := buildCandidates_spec combos h b hb
  refine ⟨hbase, ?_, ?_, ?_⟩
  · rw [hids]
    exact List.nodup_range' _ _
  · intro cid hcid
    rw [hids] at hcid
    have hge := (List.mem_range'_1.1 hcid).1
    omega
  · intro cid hcid f j hj
    exact heapModify_getD_ne _ cid j f hj

/-- C1 witness: the amended theorem applied to a concrete one-element heap and
a single combination. -/
theorem c1_candidate_snapshots_witness :
    (buildCandidates [oneTorsionBase] 0 [([120], [], [])]).1.getD 0 default
      = applyComboToBase oneTorsionBase ([120], [], []) :=
  (c1_candidate_snapshots [oneTorsionBase] 0 [([120], [], [])] (by decide)).1

/-- C2: for a conformer with no torsions, no cis/trans descriptors and no
chiral centers, `systematic_search` returns exactly the one-element list
holding the original conformer, unchanged, for every relaxer, completion order,
window, delta and flag setting. -/
theorem c2_no_descriptor_noop (opt : Conformer → RelaxResult) (completion : List ℕ)
    (w : ℚ) (c : Conformer) (delta : ℚ) (ctf chf : Bool)
    (ht : c.torsions = []) (hcis : c.cistrans = []) (hch : c.chiralCenters = []) :
    systematicSearch opt completion w c delta ctf chf = [c] := by
  have h0 : torsionCount c = 0 := by
    simp [torsionCount, findTerminalTorsions, ht]
  have h1 : torsionCombosOf (arange360 delta) (torsionCount c) = [[]] := by
    rw [h0]
    simp only [torsionCombosOf]
    rw [if_pos (by simp), cwr_zero, cwr_zero]
    decide
  have h2 : cistransCombosOf ctf c.cistrans.length = [[]] := by
    rw [hcis]
    cases ctf
    · decide
    · decide
  have h3 : chiralCombosOf c.chiralCenters = [[]] := by
    rw [hch]
    decide
  have hcombos : findAllCombos c delta ctf chf = [([], [], [])] := by
    simp only [findAllCombos, h1, h2, h3]
    decide
  simp only [systematicSearch, hcombos]
  rw [if_pos (by decide : npAnyCombos [(([] : List ℚ), ([] : List String),
    ([] : List String))] = false)]

/-- C2 witness: the theorem applied to the descriptor-free fixture. -/
theorem c2_no_descriptor_noop_witness :
    systematicSearch (fun _ => default) [] 1 bareBase 30 true true = [bareBase] :=
  c2_no_descriptor_noop (fun _ => default) [] 1 bareBase 30 true true rfl rfl rfl

/-- C3, counterexample: with the cis/trans flag disabled and a conformer
carrying one cis/trans descriptor, the emitted combination's stereo component
has length 0, not the structure's descriptor count 1 — the claim's universal
length-matching over all flag settings is false. -/
theorem c3_component_length_cex :
    ¬ ∀ combo ∈ findAllCombos oneCisBase 30 false true,
        combo.2.1.length = oneCisBase.cistrans.length := by decide

/-- C3, amended: the combination count is always the product of the three
tuple-list sizes, and each emitted combination's torsion component has length
equal to the number of non-terminal torsions, its stereo component has length
equal to the cis/trans descriptor count only when the stereo flag is enabled
(length 0 otherwise), and its chirality component always has length equal to
the chiral-center count (the chirality flag is ineffective — it is shadowed by
the structure's chiral-center list on source line 58). -/
theorem c3_combo_count_and_shape (c : Conformer) (delta : ℚ) (ctf chf : Bool) :
    (findAllCombos c delta ctf chf).length
      = (torsionCombosOf (arange360 delta) (torsionCount c)).length
        * ((cistransCombosOf ctf c.cistrans.length).length
            * (chiralCombosOf c.chiralCenters).length)
    ∧ ∀ combo ∈ findAllCombos c delta ctf chf,
        combo.1.length = torsionCount c
        ∧ combo.2.1.length = (if ctf then c.cistrans.length else 0)
        ∧ combo.2.2.length = c.chiralCenters.length := by
  constructor
  · simp only [findAllCombos]
    rw [List.length_product, List.length_product]
  · rintro ⟨t, s, u⟩ hc
    simp only [findAllCombos] at hc
    obtain ⟨h1, h2⟩ := List.mem_product.1 hc
    obtain ⟨h3, h4⟩ := List.mem_product.1 h2
    exact ⟨length_of_mem_torsionCombosOf h1, length_of_mem_cistransCombosOf h3,
      length_of_mem_chiralCombosOf h4⟩

/-- C3 witness: the amended theorem applied to the one-torsion fixture. -/
theorem c3_combo_count_and_shape_witness :
    (findAllCombos oneTorsionBase 120 true true).length
      = (torsionCombosOf (arange360 120) (torsionCount oneTorsionBase)).length
        * ((cistransCombosOf true oneTorsionBase.cistrans.length).length
            * (chiralCombosOf oneTorsionBase.chiralCenters).length) :=
  (c3_combo_count_and_shape oneTorsionBase 120 true true).1

/-- C4, counterexample: a relaxed candidate whose energy equals the global
minimum plus exactly the window satisfies the claimed non-strict bound but is
dropped by the code's strict filter (`df.energy < df.energy.min() + window`),
so the claim's `less than or equal` is false on the code. -/
theorem c4_window_boundary_cex :
    resBoundary.energy ≤ minEnergy [resA, resBoundary] + 1
    ∧ resBoundary ∉ windowFilterSort 1 [resA, resBoundary] := by decide

/-- C4, amended: the filter retains exactly the candidates whose energy is
strictly below the minimum plus the window (the boundary case is dropped), the
retained candidates are sorted ascending by energy, and on the spec's example
energies 0, 0.2 and 2.0 with window 1 only the first two are retained. -/
theorem c4_window_filter_strict (w : ℚ) (rs : List RelaxResult) :
    (∀ r, r ∈ windowFilterSort w rs ↔ r ∈ rs ∧ r.energy < minEnergy rs + w)
    ∧ (windowFilterSort w rs).Sorted energyLE
    ∧ (windowFilterSort 1 [res0, res02, res2]).map RelaxResult.energy = [0, 1 / 5] :=
  ⟨fun _ => mem_windowFilterSort, windowFilterSort_sorted w rs, by decide⟩

/-- C4 witness: the amended theorem applied at the spec's example. -/
theorem c4_window_filter_strict_witness :
    (windowFilterSort 1 [res0, res02, res2]).map RelaxResult.energy = [0, 1 / 5] :=
  (c4_window_filter_strict 1 [res0, res02, res2]).2.2

/-- C5: over the energy-sorted pair (a before b since a's energy is not
larger), the greedy pass keeps only the lower-energy candidate when the square
root of the mean of squared elementwise differences of their distance matrices
is at most 0.1, and keeps both when that measure exceeds 0.1. -/
theorem c5_greedy_similarity (a b : RelaxResult) (hE : a.energy ≤ b.energy) :
    (Real.sqrt ((meanSqDiff a.distances b.distances : ℚ) : ℝ) ≤ 1 / 10 →
        greedyPass [] (sortByEnergy [a, b]) = [a])
    ∧ (1 / 10 < Real.sqrt ((meanSqDiff a.distances b.distances : ℚ) : ℝ) →
        greedyPass [] (sortByEnergy [a, b]) = [a, b]) := by
  have hsort : sortByEnergy [a, b] = [a, b] := by
    show List.orderedInsert energyLE a (List.orderedInsert energyLE b []) = [a, b]
    simp only [List.orderedInsert]
    rw [if_pos (show energyLE a b from hE)]
  constructor
  · intro hsqrt
    have hc : closeB a b = true := closeB_iff.2 hsqrt
    rw [hsort]
    simp [greedyPass, hc]
  · intro hsqrt
    have hc : closeB a b = false := closeB_eq_false_iff.2 hsqrt
    rw [hsort]
    simp [greedyPass, hc]

/-- C5 witness: the theorem applied to the fixtures with distance matrices
differing by mean-square 25 (root 5 > 0.1): both are kept. -/
theorem c5_greedy_similarity_witness :
    greedyPass [] (sortByEnergy [resA, resC]) = [resA, resC] := by
  refine (c5_greedy_similarity resA resC (by decide)).2 ?_
  rw [show meanSqDiff resA.distances resC.distances = 25 from by decide]
  exact (tenth_lt_sqrt_iff 25).2 (by norm_num)

/-- C6: the assembled output carries sequential indices 0, 1, 2, … in the
deduplicated (ascending-energy) order, each output's energy is the recorded
relaxed energy, each output's geometry is the recorded relaxed positions, and
the energies are indeed ascending. -/
theorem c6_result_assembly (base : Conformer) (w : ℚ) (rs : List RelaxResult) :
    (assembleResults base (dedupPipeline w rs)).map Conformer.index
        = List.range (dedupPipeline w rs).length
    ∧ (assembleResults base (dedupPipeline w rs)).map Conformer.energy
        = (dedupPipeline w rs).map RelaxResult.energy
    ∧ (assembleResults base (dedupPipeline w rs)).map Conformer.positions
        = (dedupPipeline w rs).map RelaxResult.positions
    ∧ ((dedupPipeline w rs).map RelaxResult.energy).Sorted (· ≤ ·) :=
  ⟨assemble_map_index base _, assemble_map_energy base _, assemble_map_positions base _,
    List.Pairwise.map _ (fun _ _ hab => hab) (dedupPipeline_sorted w rs)⟩

/-- C6 witness: the theorem applied to concrete fixtures. -/
theorem c6_result_assembly_witness :
    (assembleResults bareBase (dedupPipeline 1 [resA, resC])).map Conformer.index
      = List.range (dedupPipeline 1 [resA, resC]).length :=
  (c6_result_assembly bareBase 1 [resA, resC]).1

/-- C7, counterexample: two relaxation results with equal energies and equal
distance matrices but different relaxed positions; consumed in the two
completion orders, the deduplication pipeline keeps different representatives,
so the final output depends on the completion order of the workers (line 228
discards the candidate-index keys of `return_dict`). -/
theorem c7_completion_order_cex :
    dedupPipeline 1 [resA, resB] ≠ dedupPipeline 1 [resB, resA] := by decide

/-- C7, amended: the relaxation results are recorded under their candidate
index, but the consumer discards the keys and reads them in completion order;
the deduplicated output is nevertheless independent of the completion order
whenever the relaxed energies are pairwise distinct. -/
theorem c7_distinct_energy_determinism (w : ℚ) (rs rs' : List RelaxResult)
    (hperm : List.Perm rs rs') (hnd : (rs.map RelaxResult.energy).Nodup) :
    dedupPipeline w rs = dedupPipeline w rs' := by
  have hmin : minEnergy rs = minEnergy rs' := minEnergy_perm hperm
  have hfil : List.Perm (windowFilter w rs) (windowFilter w rs') := by
    rw [windowFilter, windowFilter, ← hmin]
    exact hperm.filter _
  have hnd1 : ((windowFilterSort w rs).map RelaxResult.energy).Nodup := by
    have hnd0 : ((windowFilter w rs).map RelaxResult.energy).Nodup :=
      hnd.sublist ((List.filter_sublist rs).map RelaxResult.energy)
    exact (((sortByEnergy_perm (windowFilter w rs)).map RelaxResult.energy).nodup_iff).2 hnd0
  have hsorteq : windowFilterSort w rs = windowFilterSort w rs' := by
    refine eq_of_perm_sorted_nodupE ?_ (windowFilterSort_sorted w rs)
      (windowFilterSort_sorted w rs') hnd1
    exact (sortByEnergy_perm _).trans (hfil.trans (sortByEnergy_perm _).symm)
  rw [dedupPipeline, dedupPipeline, hsorteq]

/-- C7 witness: the amended theorem applied to two distinct-energy results
consumed in swapped completion orders. -/
theorem c7_distinct_energy_determinism_witness :
    dedupPipeline 1 [resA, resC] = dedupPipeline 1 [resC, resA] :=
  c7_distinct_energy_determinism 1 [resA, resC] [resC, resA]
    (List.Perm.swap resC resA []) (by decide)

/-- C8: for positive delta the angle grid is exactly the natural multiples of
delta inside `[0, 360)`; a tuple is enumerated iff it is a
combination-with-replacement of the grid or (only with more than one torsion)
of the reversed grid; and concretely for delta = 120 the grid is
`[0, 120, 240]` with exactly 3 one-torsion tuples. -/
theorem c8_torsion_grid (delta : ℚ) (hd : 0 < delta) :
    (∀ x : ℚ, x ∈ arange360 delta ↔ (∃ k : ℕ, x = (k : ℚ) * delta) ∧ 0 ≤ x ∧ x < 360)
    ∧ (∀ (n : ℕ) (t : List ℚ), t ∈ torsionCombosOf (arange360 delta) n
        ↔ t ∈ cwr (arange360 delta) n ∨ (1 < n ∧ t ∈ cwr (arange360 delta).reverse n))
    ∧ arange360 120 = [0, 120, 240]
    ∧ (torsionCombosOf (arange360 120) 1).length = 3 :=
  ⟨mem_arange360 hd, fun n t => mem_torsionCombosOf (arange360 delta) n t,
    by decide, by decide⟩

/-- C8 witness: the theorem applied at delta = 120. -/
theorem c8_torsion_grid_witness :
    arange360 120 = [0, 120, 240] ∧ (torsionCombosOf (arange360 120) 1).length = 3 :=
  ⟨(c8_torsion_grid 120 (by decide)).2.2.1, (c8_torsion_grid 120 (by decide)).2.2.2⟩

/-- C9: the deduplication step (window filter, energy sort, greedy
near-duplicate removal) is idempotent — running it on its own output returns
that output unchanged, in particular with the same kept set and ordering. -/
theorem c9_dedup_idempotent (w : ℚ) (rs : List RelaxResult) :
    dedupPipeline w (dedupPipeline w rs) = dedupPipeline w rs := by
  by_cases hK : dedupPipeline w rs = []
  · rw [hK]
    rfl
  · have hfilK : windowFilter w (dedupPipeline w rs) = dedupPipeline w rs := by
      refine List.filter_eq_self.2 fun x hx => ?_
      have hx' := mem_of_mem_dedupPipeline hx
      have hminle : minEnergy rs ≤ minEnergy (dedupPipeline w rs) := by
        obtain ⟨y, hy, hmin⟩ := minEnergy_attained hK
        rw [hmin]
        exact minEnergy_le_of_mem (mem_of_mem_dedupPipeline hy).1
      exact decide_eq_true
        (lt_of_lt_of_le hx'.2 (add_le_add_right hminle w))
    have hsortK : sortByEnergy (dedupPipeline w rs) = dedupPipeline w rs :=
      sortByEnergy_eq_of_sorted (dedupPipeline_sorted w rs)
    have hgreedyK : greedyPass [] (dedupPipeline w rs) = dedupPipeline w rs := by
      refine greedyPass_eq_self _ [] (greedyPass_pairwise_far _ []) ?_
      intro r hr
      exact absurd hr (List.not_mem_nil r)
    show greedyPass [] (windowFilterSort w (dedupPipeline w rs)) = dedupPipeline w rs
    rw [windowFilterSort, hfilK, hsortK, hgreedyK]

/-- C9 witness: idempotence at a concrete results collection. -/
theorem c9_dedup_idempotent_witness :
    dedupPipeline 1 (dedupPipeline 1 [resA, resC]) = dedupPipeline 1 [resA, resC] :=
  c9_dedup_idempotent 1 [resA, resC]

/-- C10: every enumerated torsion-angle tuple over the positive-delta grid is
monotone — non-decreasing (from the forward grid) or non-increasing (from the
reversed grid) — and in particular the non-monotone ordering (0, 240, 120) is
never enumerated for delta = 120 and three torsions. -/
theorem c10_monotone_angle_tuples :
    (∀ (delta : ℚ) (n : ℕ) (t : List ℚ), 0 < delta →
        t ∈ torsionCombosOf (arange360 delta) n →
        t.Sorted (· ≤ ·) ∨ t.Sorted (· ≥ ·))
    ∧ ([0, 240, 120] : List ℚ) ∉ torsionCombosOf (arange360 120) 3 := by
  constructor
  · intro delta n t hd ht
    rcases (mem_torsionCombosOf _ n t).1 ht with h | ⟨-, h⟩
    · left
      exact pairwise_of_mem_cwr (arange360 delta) (fun a _ => le_refl a)
        (arange360_pairwise_le hd) n t h
    · right
      refine pairwise_of_mem_cwr (R := fun x y : ℚ => x ≥ y) (arange360 delta).reverse
        (fun a _ => le_refl a) ?_ n t h
      rw [List.pairwise_reverse]
      exact arange360_pairwise_le hd
  · decide

/-- C10 witness: the monotonicity statement applied to a concrete enumerated
tuple. -/
theorem c10_monotone_angle_tuples_witness :
    ([(0 : ℚ), 0]).Sorted (· ≤ ·) ∨ ([(0 : ℚ), 0]).Sorted (· ≥ ·) :=
  c10_monotone_angle_tuples.1 120 2 [0, 0] (by decide) (by decide)

end AutoTST
